import Mathlib

/-!
Verification of the CIRC concurrent reference-counting library (powergee/circ).

The development shallowly embeds the code of `src/internal/utils.rs`
(tagged pointers, the `RcInner` counter protocol) and `src/strong.rs`
(`AtomicRc`, `Rc`, `Snapshot` operations).  Machine words (`usize`) are
modelled as `Nat` with explicit masks / `% 2 ^ 64`; the `u32` counters as
`Nat` with `% 2 ^ 32`.  Stateful operations are embedded as explicit state
passing; side effects on the counted block (counter RMWs, deferral,
disposal) are recorded in an event trace of type `List RcEv` so that
theorems can speak about which effects an operation performs.

Parts of the crate referenced by `src/strong.rs` but absent from the
sources (`crate::ebr_impl`'s high-tag operations and `global_epoch`,
`crate::utils`'s n-ary `decrement_strong`, `increment_weak` and the IRD
engine body) are modelled from the specification; each such definition
carries a doc comment starting with "Modelled from the spec:".
-/

namespace Circ

/-- Width of a machine word (`usize`); the crate statically asserts the
tagged pointer is 8 bytes. -/
def wordLen : Nat := 64

/-- Number of topmost bits holding the installation-epoch stamp. -/
def highLen : Nat := 16

/-- The place value of the high (epoch) tag region: `2 ^ (64 - 16)`. -/
def highShift : Nat := 2 ^ 48

/-- Modulus of the `u32` reference counters. -/
def U32 : Nat := 2 ^ 32

/-! ## Tagged pointers (`src/internal/utils.rs`, lines 89-134)

A tagged pointer is a machine word.  `low_bits` is the mask of the
unused least significant bits of an aligned pointer, where `a` is
`align_of::<T>().trailing_zeros()`. -/

/-- `low_bits::<T>()`: `(1 << align_of::<T>().trailing_zeros()) - 1`. -/
def low_bits (a : Nat) : Nat := 2 ^ a - 1

/-- The 64-bit complement `!low_bits::<T>()` of the low mask
(`usize::MAX - (2 ^ a - 1) = 2 ^ 64 - 2 ^ a`). -/
def not_low_bits (a : Nat) : Nat := 2 ^ 64 - 2 ^ a

/-- `Tagged::tag`: `ptr & low_bits::<T>()`. -/
def Tagged.tag (a p : Nat) : Nat := p &&& low_bits a

/-- `Tagged::as_raw`: `ptr & !low_bits::<T>()`. -/
def Tagged.as_raw (a p : Nat) : Nat := p &&& not_low_bits a

/-- The free function `with_tag`: `(ptr & !low_bits) | (tag & low_bits)`. -/
def Tagged.with_tag (a p t : Nat) : Nat :=
  (p &&& not_low_bits a) ||| (t &&& low_bits a)

/-- `Tagged::is_null`: `as_raw().is_null()`; `null()` encodes zero. -/
def Tagged.is_null (a p : Nat) : Bool := Tagged.as_raw a p == 0

/-- Modelled from the spec: `Tagged::high_tag` of `crate::ebr_impl` is not
under `src/`; the high tag occupies the topmost 16 bits of the word. -/
def Tagged.high_tag (p : Nat) : Nat := p / highShift

/-- Modelled from the spec: `Tagged::with_high_tag` of `crate::ebr_impl` is
not under `src/`; it replaces the topmost 16 bits with the installation
epoch modulo `2 ^ 16`. -/
def Tagged.with_high_tag (p e : Nat) : Nat :=
  p % highShift + (e % 2 ^ highLen) * highShift

/-- Modelled from the spec: `Tagged::ptr_eq` of `crate::ebr_impl` is not
under `src/`; it ignores the high (epoch) bits and compares only the
raw-plus-low-tag part of the word. -/
def Tagged.ptr_eq (p q : Nat) : Bool := p % highShift == q % highShift

/-- `Tagged::with_timestamp` (`src/strong.rs`, lines 107-115): a null
pointer is returned unchanged, a non-null pointer is stamped with the
current global epoch `e` in its high bits. -/
def Tagged.with_timestamp (a e p : Nat) : Nat :=
  if Tagged.is_null a p then p else Tagged.with_high_tag p e

/-! ## Events recorded by the counter protocol -/

/-- Memory orderings appearing in the embedded operations. -/
inductive MemOrd where
  | seqCst
  | acquire
  | release
  | acqRel
  | relaxed
  deriving DecidableEq, Repr

/-- Side effects of the reference-count protocol on a counted block.
`stampDestructEpoch` and `decrementWeak` are effects the specification
attributes to the protocol; constructors exist for them so that theorems
can state whether an embedded operation performs them. -/
inductive RcEv where
  | fetchAddStrong (n : Nat) (o : MemOrd)
  | fetchSubStrong (n : Nat) (o : MemOrd)
  | stampDestructEpoch (e : Nat)
  | deferTryZero (onGivenGuard : Bool)
  | dispose
  | deleteObject
  | decrementWeak (n : Nat)
  deriving DecidableEq, Repr

/-- Recognizes a `destruct_epoch` stamping event. -/
def RcEv.isStamp : RcEv → Bool
  | .stampDestructEpoch _ => true
  | _ => false

/-- Recognizes a weak-count decrement event. -/
def RcEv.isDecWeak : RcEv → Bool
  | .decrementWeak _ => true
  | _ => false

/-! ## `RcInner` counter protocol (`src/internal/utils.rs`, lines 36-62)

The block's strong counter is a `u32`; an operation maps the prior
counter value to the new value together with the trace of effects it
performs. -/

/-- `RcInner::increment_strong`: `fetch_add(1, SeqCst)`; if the returned
prior value was 0, a second `fetch_add(1, SeqCst)` restores the
permission to run the already-committed decrement again. -/
def RcInner.increment_strong (s : Nat) : Nat × List RcEv :=
  if s == 0 then
    (((s + 1) % U32 + 1) % U32,
      [.fetchAddStrong 1 .seqCst, .fetchAddStrong 1 .seqCst])
  else ((s + 1) % U32, [.fetchAddStrong 1 .seqCst])

/-- `RcInner::decrement_strong(cs : Option<&C>)`: `fetch_sub(1, SeqCst)`;
if the returned prior value was 1, defer `try_zero` on the given critical
section when one is supplied, otherwise on a freshly pinned one
(`C::new()`).  `hasGuard` is whether `cs` is `Some`. -/
def RcInner.decrement_strong (s : Nat) (hasGuard : Bool) : Nat × List RcEv :=
  if s == 1 then
    ((s + (U32 - 1)) % U32,
      [.fetchSubStrong 1 .seqCst, .deferTryZero hasGuard])
  else ((s + (U32 - 1)) % U32, [.fetchSubStrong 1 .seqCst])

/-- `RcInner::try_zero`: re-read the strong count via
`fetch_add(0, SeqCst)`; if it is still zero, `dispose` the storage and
`delete_object` the block; otherwise run `decrement_strong` again with no
critical section. -/
def RcInner.try_zero (s : Nat) : Nat × List RcEv :=
  if s == 0 then (s, [.fetchAddStrong 0 .seqCst, .dispose, .deleteObject])
  else
    let r := RcInner.decrement_strong s false
    (r.1, .fetchAddStrong 0 .seqCst :: r.2)

/-- Modelled from the spec: the n-ary
`RcInner::decrement_strong(n, guard?)` of `crate::utils` called by
`src/strong.rs` is not under `src/`.  Per the spec: `fetch_sub(n, SeqCst)`;
if the prior value was `n`, the strong count reached zero: stamp
`destruct_epoch` with the current global epoch `e` and defer `try_zero`
(inline on the given guard, else on a freshly pinned one). -/
def RcInner.decrement_strong_n (n s e : Nat) (hasGuard : Bool) :
    Nat × List RcEv :=
  if s == n then
    ((s + (U32 - n % U32)) % U32,
      [.fetchSubStrong n .seqCst, .stampDestructEpoch e,
        .deferTryZero hasGuard])
  else ((s + (U32 - n % U32)) % U32, [.fetchSubStrong n .seqCst])

/-- Modelled from the spec: `RcInner::increment_weak(n)` of `crate::utils`
is not under `src/`; it fetch-adds `n` on the weak counter. -/
def RcInner.increment_weak (n wk : Nat) : Nat := (wk + n) % U32

/-! ## `Rc` and `Snapshot` handle operations (`src/strong.rs`)

A handle is its word `w`; the referent's strong counter `s` is passed
explicitly.  Null checks follow the source's `self.ptr.as_raw().as_ref()`
pattern: the referent is touched only when the raw part of the word is
non-zero. -/

/-- `impl Clone for Rc` (`src/strong.rs`, lines 453-466): copy the word
and `increment_strong` the referent when the raw pointer is non-null. -/
def Rc.clone (a w s : Nat) : Nat × List RcEv :=
  if Tagged.as_raw a w == 0 then (s, []) else RcInner.increment_strong s

/-- `impl Drop for Rc` (`src/strong.rs`, lines 694-703): when the raw
pointer is non-null, `RcInner::decrement_strong(cnt, 1, None)` on the
referent (the n-ary version of `crate::utils`, with no guard supplied);
`e` is the global epoch the zero path would stamp. -/
def Rc.drop (a e w s : Nat) : Nat × List RcEv :=
  if Tagged.as_raw a w == 0 then (s, [])
  else RcInner.decrement_strong_n 1 s e false

/-- `Snapshot::counted` (`src/strong.rs`, lines 810-818): build an `Rc`
from the snapshot's word and `increment_strong` the referent when the raw
pointer is non-null. -/
def Snapshot.counted (a w s : Nat) : Nat × List RcEv :=
  if Tagged.as_raw a w == 0 then (s, []) else RcInner.increment_strong s

/-- Modelled from the spec: `Weak::null()` of the weak-handle module is
not under `src/`; `null()` encodes zero. -/
def Weak.null : Nat := 0

/-- `Rc::weak_many::<N>` (`src/strong.rs`, lines 534-540): when the raw
pointer is non-null, `increment_weak(N)` on the referent; then return an
array built by `array::from_fn(|_| Weak::null())`.  `wk` is the referent's
prior weak count; the result is the new weak count and the list of the
returned handles' words. -/
def Rc.weak_many (a w wk n : Nat) : Nat × List Nat :=
  (if Tagged.as_raw a w == 0 then wk else RcInner.increment_weak n wk,
    List.replicate n Weak.null)

/-! ## `AtomicRc` slot operations (`src/strong.rs`)

The slot is its stored word.  The embedding is sequential: during one
operation no other thread writes the slot, so a compare-exchange loop
observes the same slot word at every iteration. -/

/-- `AtomicRc::load` (`src/strong.rs`, lines 174-176):
`Snapshot::from_raw(self.link.load(order))` returns the slot word. -/
def AtomicRc.load (slot : Nat) : Nat := slot

/-- The slot effect of `AtomicRc::store` and `AtomicRc::swap`
(`src/strong.rs`, lines 183-206): both swap
`ptr.with_timestamp()` into the link; the pair is the new slot word and
the previous word (which `swap` returns as an `Rc` and `store` hands to
`decrement_strong`). -/
def AtomicRc.swap (a e slot w : Nat) : Nat × Nat :=
  (Tagged.with_timestamp a e w, slot)

/-- The new slot word written by `AtomicRc::store` (`src/strong.rs`,
lines 183-194); the previous word's referent is then handed to
`RcInner::decrement_strong` when non-null, which does not touch the
slot. -/
def AtomicRc.store_word (a e : Nat) (_slot : Nat) (w : Nat) : Nat :=
  Tagged.with_timestamp a e w

/-- Result of `AtomicRc::compare_exchange`: `ok prev` is
`Ok(Rc::from_raw(expected_raw))`; `err d c` is
`Err(CompareExchangeError { desired, current })` carrying the caller's
`desired` word back and a snapshot of the observed current word. -/
inductive CeResult where
  | ok (prev : Nat)
  | err (desired : Nat) (current : Nat)
  deriving DecidableEq, Repr

/-- Recognizes the failure branch of a `compare_exchange` result. -/
def CeResult.isErr : CeResult → Bool
  | .ok _ => false
  | .err _ _ => true

/-- The retry loop of `AtomicRc::compare_exchange` (`src/strong.rs`,
lines 235-255).  `slot` is the (sequentially constant) stored word,
`desired` the caller's `Rc` word, `desiredRaw` its timestamped form
computed once before the loop, `expectedRaw` the loop variable.  A CAS
failure whose observed word is `ptr_eq` to `expectedRaw` (an epoch-only
mismatch) retries with the observed word; the fuel bounds the iterations
and two always suffice sequentially (proved below). -/
def AtomicRc.ceLoop (slot desired desiredRaw : Nat) :
    Nat → Nat → Option (Nat × CeResult)
  | _, 0 => none
  | expectedRaw, fuel + 1 =>
    if slot == expectedRaw then some (desiredRaw, .ok expectedRaw)
    else if Tagged.ptr_eq slot expectedRaw then
      AtomicRc.ceLoop slot desired desiredRaw slot fuel
    else some (slot, .err desired slot)

/-- `AtomicRc::compare_exchange` (`src/strong.rs`, lines 225-256): run the
retry loop with `expected_raw := expected.ptr` and
`desired_raw := desired.ptr.with_timestamp()`. -/
def AtomicRc.compare_exchange (a e slot expected desired : Nat) :
    Option (Nat × CeResult) :=
  AtomicRc.ceLoop slot desired (Tagged.with_timestamp a e desired) expected 2

/-- Result of `AtomicRc::compare_exchange_tag`: both constructors carry
`Snapshot` words (`ok cur` is `Ok(Snapshot::from_raw(current_raw))` where
the CAS returned the previous word; `err d c` carries
`Snapshot::from_raw(desired_raw)` and the observed current word). -/
inductive CetResult where
  | ok (cur : Nat)
  | err (desired : Nat) (current : Nat)
  deriving DecidableEq, Repr

/-- The retry loop of `AtomicRc::compare_exchange_tag` (`src/strong.rs`,
lines 344-361); `desiredRaw` is computed once from the original
`expected` word.  The result also carries the trace of reference-count
operations the loop performs, which is empty: the source body never
touches a counter on either branch. -/
def AtomicRc.cetLoop (slot desiredRaw : Nat) :
    Nat → Nat → Option (Nat × CetResult × List RcEv)
  | _, 0 => none
  | expectedRaw, fuel + 1 =>
    if slot == expectedRaw then some (desiredRaw, .ok slot, [])
    else if Tagged.ptr_eq slot expectedRaw then
      AtomicRc.cetLoop slot desiredRaw slot fuel
    else some (slot, .err desiredRaw slot, [])

/-- `AtomicRc::compare_exchange_tag` (`src/strong.rs`, lines 334-362):
`desired_raw := expected_raw.with_tag(desired_tag).with_timestamp()`,
then the retry loop. -/
def AtomicRc.compare_exchange_tag (a e slot expected t : Nat) :
    Option (Nat × CetResult × List RcEv) :=
  AtomicRc.cetLoop slot
    (Tagged.with_timestamp a e (Tagged.with_tag a expected t)) expected 2

/-! ## The IRD (immediate recursive destruction) engine

Modelled from the spec: the engine body (`crate::utils::try_ird_with_raw`
and the `dispose` loop it feeds) is not under `src/`; only its shells
`TryIRD` / `EdgeTaker` (`src/strong.rs`, lines 70-99) are.  Per the spec
(section 4.4): when a block's strong count reaches zero and `dispose`
runs, its outgoing edges are moved into a local buffer; for each
extracted edge, a null target is skipped, otherwise the target's strong
count is decremented by one, and if it thereby reaches zero the target is
destroyed inline when its installation epoch (the high tag of the
extracted pointer) is at most the guard's epoch minus two, and deferred
as ordinary EBR work otherwise.  Inline destruction pushes the target's
own extracted edges onto the same buffer, so deep cascades are iterative
inline work, not nested calls. -/

/-- An edge extracted from a dying block: the target's address (0 encodes
a null target) and the installation epoch carried in the extracted
pointer's high tag. -/
structure IrdEdge where
  addr : Nat
  epoch : Nat
  deriving DecidableEq, Repr

/-- State of the IRD engine: the strong counter of every block, the local
buffer of extracted edges still to process, the bag of destructions
deferred to the EBR backend, and the addresses destroyed inline so far
(in destruction order). -/
structure IrdState where
  strong : Nat → Nat
  work : List IrdEdge
  bag : List IrdEdge
  destroyed : List Nat

/-- Modelled from the spec: one step of the engine processes the first
extracted edge of the buffer.  `g` is the guard's epoch and `edges x` the
outgoing edges popped from block `x` when it is disposed. -/
def irdStep (g : Nat) (edges : Nat → List IrdEdge) (st : IrdState) :
    IrdState :=
  match st.work with
  | [] => st
  | p :: rest =>
    if p.addr == 0 then { st with work := rest }
    else
      let s := st.strong p.addr
      let strong2 := fun x => if x == p.addr then (s + (U32 - 1)) % U32
        else st.strong x
      if s == 1 then
        if p.epoch + 2 ≤ g then
          { strong := strong2, work := edges p.addr ++ rest,
            bag := st.bag, destroyed := st.destroyed ++ [p.addr] }
        else
          { strong := strong2, work := rest,
            bag := st.bag ++ [p], destroyed := st.destroyed }
      else { st with strong := strong2, work := rest }

/-- Modelled from the spec: run the engine until the buffer is empty or
the fuel runs out; the second component is the largest buffer length
observed, the engine's only auxiliary space (the Rust call stack does not
grow with the cascade). -/
def irdRun (g : Nat) (edges : Nat → List IrdEdge) :
    Nat → IrdState → IrdState × Nat
  | 0, st => (st, st.work.length)
  | fuel + 1, st =>
    match st.work with
    | [] => (st, 0)
    | _ =>
      let r := irdRun g edges fuel (irdStep g edges st)
      (r.1, max st.work.length r.2)

/-- Modelled from the spec: destroying block `h` whose strong count has
reached zero pops its edges into a fresh buffer and runs the engine. -/
def irdDestroy (g : Nat) (edges : Nat → List IrdEdge)
    (strong0 : Nat → Nat) (h fuel : Nat) : IrdState × Nat :=
  irdRun g edges fuel
    { strong := strong0, work := edges h, bag := [], destroyed := [h] }

/-- The outgoing edges of a singly linked chain of blocks `1, ..., L`:
block `i < L` points to `i + 1` with installation epoch `eps i`; the last
block's next field is a null pointer. -/
def chainEdges (L : Nat) (eps : Nat → Nat) : Nat → List IrdEdge :=
  fun i => if i < L then [⟨i + 1, eps i⟩] else [⟨0, 0⟩]

/-! ## Mask arithmetic -/

theorem low_bits_and_mod (a p : Nat) : p &&& low_bits a = p % 2 ^ a := by
  unfold low_bits
  exact Nat.and_pow_two_sub_one_eq_mod p a

theorem not_low_bits_mod (a : Nat) : not_low_bits a % 2 ^ a = 0 := by
  unfold not_low_bits
  by_cases h : a ≤ 64
  · obtain ⟨k, hk⟩ : 2 ^ a ∣ 2 ^ 64 - 2 ^ a :=
      Nat.dvd_sub' (pow_dvd_pow 2 h) dvd_rfl
    rw [hk, Nat.mul_mod_right]
  · have hz : 2 ^ 64 - 2 ^ a = 0 :=
      Nat.sub_eq_zero_of_le (Nat.pow_le_pow_right (by omega) (by omega))
    rw [hz, Nat.zero_mod]

theorem not_low_and_low (a : Nat) : not_low_bits a &&& low_bits a = 0 := by
  rw [low_bits_and_mod, not_low_bits_mod]

theorem testBit_not_low_bits (a i : Nat) (h : a ≤ 64) :
    (not_low_bits a).testBit i = (decide (a ≤ i) && decide (i < 64)) := by
  have hpow : 2 ^ (64 - a) * 2 ^ a = 2 ^ 64 := by
    rw [← pow_add]
    congr 1
    omega
  have hrw : not_low_bits a = (2 ^ (64 - a) - 1) <<< a := by
    rw [Nat.shiftLeft_eq, tsub_mul, hpow, one_mul]
    rfl
  rw [hrw]
  simp only [Nat.testBit_shiftLeft, Nat.testBit_two_pow_sub_one]
  by_cases h1 : a ≤ i <;> by_cases h2 : i < 64 <;>
    simp [h1, h2] <;> omega

/-- `tag` after `with_tag` is the requested tag truncated to the low-bit
mask. -/
theorem tag_with_tag_general (a p t : Nat) :
    Tagged.tag a (Tagged.with_tag a p t) = t &&& low_bits a := by
  unfold Tagged.tag Tagged.with_tag
  rw [Nat.and_distrib_right, Nat.and_assoc, Nat.and_assoc, not_low_and_low,
    Nat.and_zero, Nat.zero_or, Nat.and_self]

/-- `tag` after `with_tag` is the requested tag, provided the tag fits in
the unused alignment bits. -/
theorem tag_with_tag (a p t : Nat) (ht : t < 2 ^ a) :
    Tagged.tag a (Tagged.with_tag a p t) = t := by
  rw [tag_with_tag_general, low_bits_and_mod, Nat.mod_eq_of_lt ht]

/-- `as_raw` after `with_tag` is the original raw part. -/
theorem as_raw_with_tag (a p t : Nat) :
    Tagged.as_raw a (Tagged.with_tag a p t) = Tagged.as_raw a p := by
  unfold Tagged.as_raw Tagged.with_tag
  rw [Nat.and_distrib_right, Nat.and_assoc, Nat.and_assoc, Nat.and_self,
    Nat.and_comm (low_bits a), not_low_and_low, Nat.and_zero, Nat.or_zero]

/-! ## Projections modulo the high-tag region

The user-visible part of a word is its value modulo `2 ^ 48` (raw address
plus low tag); the high-tag operations never change it. -/

theorem with_high_tag_mod (p e : Nat) :
    Tagged.with_high_tag p e % highShift = p % highShift := by
  unfold Tagged.with_high_tag
  rw [Nat.add_mul_mod_self_right, Nat.mod_mod_of_dvd p dvd_rfl]

theorem with_timestamp_mod (a e p : Nat) :
    Tagged.with_timestamp a e p % highShift = p % highShift := by
  unfold Tagged.with_timestamp
  by_cases h : Tagged.is_null a p
  · rw [if_pos h]
  · rw [if_neg h, with_high_tag_mod]

theorem ptr_eq_iff (p q : Nat) :
    Tagged.ptr_eq p q = true ↔ p % highShift = q % highShift := by
  unfold Tagged.ptr_eq
  exact beq_iff_eq

theorem ptr_eq_refl (p : Nat) : Tagged.ptr_eq p p = true := by
  simp [Tagged.ptr_eq]

/-- Stamping the high bits does not change the low tag, provided the
low-tag region is inside the user-visible part. -/
theorem tag_with_high_tag (a p e : Nat) (ha : a ≤ 48) :
    Tagged.tag a (Tagged.with_high_tag p e) = Tagged.tag a p := by
  unfold Tagged.tag Tagged.with_high_tag highShift
  rw [low_bits_and_mod, low_bits_and_mod]
  have h48 : (2 : Nat) ^ 48 = 2 ^ a * 2 ^ (48 - a) := by
    rw [← pow_add]
    congr 1
    omega
  rw [h48, show e % 2 ^ highLen * (2 ^ a * 2 ^ (48 - a)) =
      e % 2 ^ highLen * 2 ^ (48 - a) * 2 ^ a by ring,
    Nat.add_mul_mod_self_right,
    Nat.mod_mod_of_dvd p (dvd_mul_right (2 ^ a) (2 ^ (48 - a)))]

theorem tag_with_timestamp (a e p : Nat) (ha : a ≤ 48) :
    Tagged.tag a (Tagged.with_timestamp a e p) = Tagged.tag a p := by
  unfold Tagged.with_timestamp
  by_cases h : Tagged.is_null a p
  · rw [if_pos h]
  · rw [if_neg h, tag_with_high_tag a p e ha]

/-- `with_tag` commutes with truncation to the user-visible part. -/
theorem with_tag_userWord (a p t : Nat) :
    Tagged.with_tag a p t % highShift =
      Tagged.with_tag a (p % highShift) t % highShift := by
  unfold Tagged.with_tag highShift
  apply Nat.eq_of_testBit_eq
  intro i
  simp only [Nat.testBit_mod_two_pow, Nat.testBit_or, Nat.testBit_and]
  by_cases h48 : i < 48 <;> simp [h48]

/-- Replacing a word's tag by its own tag does not change the
user-visible part, provided the low-tag region is inside it. -/
theorem with_tag_self_tag (a p : Nat) (ha : a ≤ 48) :
    Tagged.with_tag a p (Tagged.tag a p) % highShift = p % highShift := by
  unfold Tagged.with_tag Tagged.tag highShift
  apply Nat.eq_of_testBit_eq
  intro i
  simp only [Nat.testBit_mod_two_pow, Nat.testBit_or, Nat.testBit_and]
  by_cases h48 : i < 48
  · have hnl : (not_low_bits a).testBit i =
        (decide (a ≤ i) && decide (i < 64)) :=
      testBit_not_low_bits a i (by omega)
    have hl : (low_bits a).testBit i = decide (i < a) := by
      unfold low_bits
      exact Nat.testBit_two_pow_sub_one a i
    rw [hnl, hl]
    have h64 : i < 64 := by omega
    by_cases hia : i < a
    · have hai : ¬ a ≤ i := by omega
      simp [h48, hia, hai]
    · have hai : a ≤ i := by omega
      simp [h48, hia, hai, h64]
  · simp [h48]

/-! ## Counter arithmetic helpers -/

theorem u32_sub_one_mod (s : Nat) (h1 : 1 ≤ s) (h2 : s < U32) :
    (s + (U32 - 1)) % U32 = s - 1 := by
  have hU : U32 = 4294967296 := by norm_num [U32]
  rw [hU] at h2 ⊢
  omega

theorem u32_lt_mod (s : Nat) (h : s < U32) : s % U32 = s :=
  Nat.mod_eq_of_lt h

theorem dec_val (s : Nat) (g : Bool) :
    (RcInner.decrement_strong s g).1 = (s + (U32 - 1)) % U32 := by
  unfold RcInner.decrement_strong
  by_cases h : (s == 1) = true
  · rw [if_pos h]
  · rw [if_neg h]

theorem try_zero_pos (s : Nat) (h : ¬ (s == 0) = true) :
    RcInner.try_zero s = ((RcInner.decrement_strong s false).1,
      RcEv.fetchAddStrong 0 MemOrd.seqCst ::
        (RcInner.decrement_strong s false).2) := by
  unfold RcInner.try_zero
  rw [if_neg h]

/-! ## Claim theorems -/

/-- C8: for every tagged pointer `p` and every low-tag value
`t < 2 ^ log2(align)`, `with_tag` sets exactly the low tag bits:
`p.with_tag(t).tag() = t` and `p.with_tag(t).as_raw() = p.as_raw()`. -/
theorem C8_with_tag_sets_only_low_bits (a p t : Nat) (ht : t < 2 ^ a) :
    Tagged.tag a (Tagged.with_tag a p t) = t ∧
    Tagged.as_raw a (Tagged.with_tag a p t) = Tagged.as_raw a p :=
  ⟨tag_with_tag a p t ht, as_raw_with_tag a p t⟩

/-- Witness for C8 at `a = 2`, `p = 1001`, `t = 3`. -/
theorem C8_witness :
    3 < 2 ^ 2 ∧
      (Tagged.tag 2 (Tagged.with_tag 2 1001 3) = 3 ∧
        Tagged.as_raw 2 (Tagged.with_tag 2 1001 3) = Tagged.as_raw 2 1001) :=
  ⟨by decide, C8_with_tag_sets_only_low_bits 2 1001 3 (by decide)⟩

/-- C2: `increment_strong` performs one `fetch_add(1, SeqCst)` and a
second one exactly when the first returned 0; for prior value `s` the
counter afterwards is `s + 1` when `s > 0` and `2` when `s = 0`
(overflow, undefined at the library level, excluded). -/
theorem C2_increment_strong (s : Nat) (hov : s + 1 < U32) :
    (s = 0 → RcInner.increment_strong s =
      (2, [RcEv.fetchAddStrong 1 MemOrd.seqCst,
        RcEv.fetchAddStrong 1 MemOrd.seqCst])) ∧
    (0 < s → RcInner.increment_strong s =
      (s + 1, [RcEv.fetchAddStrong 1 MemOrd.seqCst])) := by
  have hU : U32 = 4294967296 := by norm_num [U32]
  constructor
  · rintro rfl
    simp only [RcInner.increment_strong]
    norm_num [hU]
  · intro hs
    have hne : ¬ (s == 0) = true := by simp; omega
    simp only [RcInner.increment_strong, if_neg hne]
    rw [u32_lt_mod (s + 1) hov]

/-- Witness for C2 at `s = 5`. -/
theorem C2_witness :
    5 + 1 < U32 ∧
      (0 < 5 → RcInner.increment_strong 5 =
        (6, [RcEv.fetchAddStrong 1 MemOrd.seqCst])) :=
  ⟨by norm_num [U32], (C2_increment_strong 5 (by norm_num [U32])).2⟩

/-- C3 counterexample: the claim requires `decrement_strong` to stamp
`destruct_epoch` when the counter reaches zero, but at prior value 1 with
a supplied critical section the embedded code's full trace is a
`fetch_sub` followed by the deferral — it contains no stamping event (the
block has no `destruct_epoch` field). -/
theorem C3_counterexample :
    RcInner.decrement_strong 1 true =
      (0, [RcEv.fetchSubStrong 1 MemOrd.seqCst, RcEv.deferTryZero true]) ∧
    (RcInner.decrement_strong 1 true).2.countP (fun ev => ev.isStamp) = 0 := by
  decide

/-- C3 (amended): `decrement_strong` performs `fetch_sub(1, SeqCst)`;
exactly when the counter thereby reaches zero (prior value 1) it defers
`try_zero`, on the supplied critical section when one is given and on a
freshly pinned one otherwise; it writes no destruct-epoch stamp; when the
counter does not reach zero nothing else happens. -/
theorem C3_decrement_strong_amended (s : Nat) (g : Bool) (h1 : 1 ≤ s)
    (h2 : s < U32) :
    (RcInner.decrement_strong s g).1 = s - 1 ∧
    RcEv.fetchSubStrong 1 MemOrd.seqCst ∈ (RcInner.decrement_strong s g).2 ∧
    (RcEv.deferTryZero true ∈ (RcInner.decrement_strong s g).2 ↔
      s = 1 ∧ g = true) ∧
    (RcEv.deferTryZero false ∈ (RcInner.decrement_strong s g).2 ↔
      s = 1 ∧ g = false) ∧
    (s ≠ 1 → (RcInner.decrement_strong s g).2 =
      [RcEv.fetchSubStrong 1 MemOrd.seqCst]) ∧
    (RcInner.decrement_strong s g).2.countP (fun ev => ev.isStamp) = 0 := by
  by_cases hs : s = 1
  · subst hs
    cases g <;> decide
  · have hne : ¬ (s == 1) = true := by simp [hs]
    simp only [RcInner.decrement_strong, if_neg hne]
    refine ⟨u32_sub_one_mod s h1 h2, by decide, by simp [hs],
      by simp [hs], fun _ => by simp, by decide⟩

/-- Witness for C3 (amended) at `s = 2`, no critical section supplied. -/
theorem C3_witness :
    (RcInner.decrement_strong 2 false).1 = 1 ∧
      (RcInner.decrement_strong 2 false).2 =
        [RcEv.fetchSubStrong 1 MemOrd.seqCst] := by
  have h := C3_decrement_strong_amended 2 false (by norm_num)
    (by norm_num [U32])
  exact ⟨h.1, h.2.2.2.2.1 (by norm_num)⟩

/-- C4 counterexample: the claim requires `try_zero` to perform
`decrement_weak(1)` after disposing, but at a (re-read) strong count of 0
the embedded code's full trace is the re-read, the disposal and
`delete_object` — it contains no weak-count decrement (the block has no
weak counter). -/
theorem C4_counterexample :
    RcInner.try_zero 0 =
      (0, [RcEv.fetchAddStrong 0 MemOrd.seqCst, RcEv.dispose,
        RcEv.deleteObject]) ∧
    (RcInner.try_zero 0).2.countP (fun ev => ev.isDecWeak) = 0 := by
  decide

/-- C4 (amended): `try_zero` re-reads the strong counter with SeqCst
(`fetch_add(0, SeqCst)`); if it is still zero it disposes the object and
frees the block via `delete_object` (there is no weak counter to
decrement); if it is nonzero it runs `decrement_strong` again (with no
critical section) and exits without disposing. -/
theorem C4_try_zero_amended (s : Nat) (h2 : s < U32) :
    (s = 0 → RcInner.try_zero s =
      (0, [RcEv.fetchAddStrong 0 MemOrd.seqCst, RcEv.dispose,
        RcEv.deleteObject])) ∧
    (1 ≤ s → (RcInner.try_zero s).1 = s - 1 ∧
      (RcInner.try_zero s).2 = RcEv.fetchAddStrong 0 MemOrd.seqCst ::
        (RcInner.decrement_strong s false).2 ∧
      RcEv.dispose ∉ (RcInner.try_zero s).2) ∧
    (RcInner.try_zero s).2.countP (fun ev => ev.isDecWeak) = 0 := by
  by_cases hs : s = 0
  · subst hs
    refine ⟨fun _ => ?_, fun h => absurd h (by omega), ?_⟩ <;> decide
  · have h1 : 1 ≤ s := by omega
    have hne : ¬ (s == 0) = true := by simp [hs]
    rw [try_zero_pos s hne]
    refine ⟨fun h0 => absurd h0 hs, fun _ => ⟨?_, rfl, ?_⟩, ?_⟩
    · rw [dec_val]
      exact u32_sub_one_mod s h1 h2
    · by_cases h1s : (s == 1) = true
      · simp only [RcInner.decrement_strong, if_pos h1s]
        decide
      · simp only [RcInner.decrement_strong, if_neg h1s]
        decide
    · by_cases h1s : (s == 1) = true
      · simp only [RcInner.decrement_strong, if_pos h1s]
        decide
      · simp only [RcInner.decrement_strong, if_neg h1s]
        decide

/-- Witness for C4 (amended) at `s = 3`. -/
theorem C4_witness :
    (RcInner.try_zero 3).1 = 2 ∧ RcEv.dispose ∉ (RcInner.try_zero 3).2 := by
  have h := C4_try_zero_amended 3 (by norm_num [U32])
  exact ⟨(h.2.1 (by norm_num)).1, (h.2.1 (by norm_num)).2.2⟩

/-- C7: cloning a non-null `Rc` whose referent has strong count at least 1
and dropping the clone leaves the strong count unchanged, and likewise
for `Snapshot::counted` followed by a drop of the resulting `Rc`. -/
theorem C7_clone_drop_strong_unchanged (a e w s : Nat)
    (hnn : Tagged.as_raw a w ≠ 0) (hs : 1 ≤ s) (hov : s + 1 < U32) :
    (Rc.drop a e w (Rc.clone a w s).1).1 = s ∧
    (Rc.drop a e w (Snapshot.counted a w s).1).1 = s := by
  have hU : U32 = 4294967296 := by norm_num [U32]
  have hraw : ¬ (Tagged.as_raw a w == 0) = true := by simp [hnn]
  have hs0 : ¬ (s == 0) = true := by simp; omega
  have hclone : (Rc.clone a w s).1 = s + 1 := by
    simp only [Rc.clone, if_neg hraw, RcInner.increment_strong, if_neg hs0]
    exact u32_lt_mod (s + 1) hov
  have hcounted : (Snapshot.counted a w s).1 = s + 1 := by
    simp only [Snapshot.counted, if_neg hraw, RcInner.increment_strong,
      if_neg hs0]
    exact u32_lt_mod (s + 1) hov
  have hdropv : (Rc.drop a e w (s + 1)).1 = s := by
    have hne1 : ¬ (s + 1 == 1) = true := by simp; omega
    simp only [Rc.drop, if_neg hraw, RcInner.decrement_strong_n,
      if_neg hne1]
    rw [hU] at hov ⊢
    omega
  rw [hclone, hcounted]
  exact ⟨hdropv, hdropv⟩

/-- Witness for C7 at `a = 2`, `e = 7`, `w = 8`, `s = 1`. -/
theorem C7_witness :
    Tagged.as_raw 2 8 ≠ 0 ∧
      (Rc.drop 2 7 8 (Rc.clone 2 8 1).1).1 = 1 :=
  ⟨by decide,
    (C7_clone_drop_strong_unchanged 2 7 8 1 (by decide) (by norm_num)
      (by norm_num [U32])).1⟩

/-- C9: evaluating `Rc::weak_many` on a non-null `Rc` (word 8, alignment
bits 2) with prior weak count 1 and `N = 3` increments the weak counter
to 4 but returns three `Weak::null()` handles — every returned handle is
null rather than a live weak handle to the referent, contradicting the
claim and the method's own documentation. -/
theorem C9_weak_many_returns_null_handles :
    Rc.weak_many 2 8 1 3 = (4, [0, 0, 0]) ∧
    ((Rc.weak_many 2 8 1 3).2.all fun h => Tagged.is_null 2 h) = true := by
  decide

/-- C10: null handles are total no-ops and nullness survives the atomic
slots: `with_timestamp` returns a null word unchanged, storing or
swapping a null `Rc` leaves the slot's word exactly the null word written
(zero when the handle is `Rc::null()`), a later load is null, and
`Rc::clone` / `Rc::drop` on a null handle perform no reference-count
operation and never touch the referent. -/
theorem C10_null_noop (a e w slot s : Nat)
    (hnull : Tagged.is_null a w = true) :
    Tagged.with_timestamp a e w = w ∧
    AtomicRc.store_word a e slot w = w ∧
    Tagged.is_null a (AtomicRc.load (AtomicRc.store_word a e slot w)) =
      true ∧
    (AtomicRc.swap a e slot w).1 = w ∧
    (w = 0 → AtomicRc.store_word a e slot w = 0) ∧
    Rc.clone a w s = (s, []) ∧
    Rc.drop a e w s = (s, []) := by
  have hts : Tagged.with_timestamp a e w = w := by
    unfold Tagged.with_timestamp
    rw [if_pos hnull]
  have hraw : (Tagged.as_raw a w == 0) = true := hnull
  refine ⟨hts, hts, ?_, hts,
    fun hw => by unfold AtomicRc.store_word; rw [hts]; exact hw, ?_, ?_⟩
  · unfold AtomicRc.load AtomicRc.store_word
    rw [hts]
    exact hnull
  · simp only [Rc.clone, if_pos hraw]
  · simp only [Rc.drop, if_pos hraw]

/-- Witness for C10 at `a = 2`, `e = 9`, null word `w = 0`, slot 12,
strong count 5. -/
theorem C10_witness :
    Tagged.is_null 2 0 = true ∧
      (AtomicRc.store_word 2 9 12 0 = 0 ∧ Rc.clone 2 0 5 = (5, [])) := by
  have h := C10_null_noop 2 9 0 12 5 (by decide)
  exact ⟨by decide, h.2.2.2.2.1 rfl, h.2.2.2.2.2.1⟩

/-- C1: `compare_exchange` always terminates with a result; when the
observed slot word agrees with `expected` on the raw-plus-low-tag part
(`ptr_eq`), the operation succeeds — an epoch-only mismatch is retried
internally with the observed word and never surfaces as a failure; an
`Err` occurs exactly when the observed word differs from `expected` in
the raw pointer or low tag bits, and then it carries the caller's
`desired` word back unchanged together with a snapshot of the observed
current word, with the slot left unmodified. -/
theorem C1_compare_exchange_err (a e slot expected desired : Nat) :
    ∃ out, AtomicRc.compare_exchange a e slot expected desired = some out ∧
      (Tagged.ptr_eq slot expected = true →
        out = (Tagged.with_timestamp a e desired,
          CeResult.ok (if (slot == expected) = true then expected
            else slot))) ∧
      (Tagged.ptr_eq slot expected = false →
        out = (slot, CeResult.err desired slot)) ∧
      (CeResult.isErr out.2 = true →
        Tagged.ptr_eq slot expected = false) := by
  by_cases hbe : (slot == expected) = true
  · have heq : slot = expected := by simpa using hbe
    refine ⟨(Tagged.with_timestamp a e desired, CeResult.ok expected),
      ?_, ?_, ?_, ?_⟩
    · simp [AtomicRc.compare_exchange, AtomicRc.ceLoop, hbe]
    · intro _
      rw [if_pos hbe]
    · intro hpf
      rw [heq, ptr_eq_refl] at hpf
      cases hpf
    · intro h
      simp [CeResult.isErr] at h
  · have hbe2 : (slot == expected) = false := by
      rwa [Bool.not_eq_true] at hbe
    by_cases hpe : Tagged.ptr_eq slot expected = true
    · refine ⟨(Tagged.with_timestamp a e desired, CeResult.ok slot),
        ?_, ?_, ?_, ?_⟩
      · simp [AtomicRc.compare_exchange, AtomicRc.ceLoop, hbe2, hpe]
      · intro _
        rw [if_neg hbe]
      · intro hpf
        rw [hpe] at hpf
        cases hpf
      · intro h
        simp [CeResult.isErr] at h
    · have hpe2 : Tagged.ptr_eq slot expected = false := by
        rwa [Bool.not_eq_true] at hpe
      refine ⟨(slot, CeResult.err desired slot), ?_, ?_, ?_, ?_⟩
      · simp [AtomicRc.compare_exchange, AtomicRc.ceLoop, hbe2, hpe2]
      · intro hpt
        exact absurd hpt hpe
      · intro _
        rfl
      · intro _
        exact hpe2

/-- Witness for C1: slot and expected differ only in the high epoch bits
(`slot = 8 + 2 ^ 48`, `expected = 8`), so the operation retries
internally and succeeds instead of failing. -/
theorem C1_witness :
    Tagged.ptr_eq (8 + 2 ^ 48) 8 = true ∧
      AtomicRc.compare_exchange 2 5 (8 + 2 ^ 48) 8 12 =
        some (Tagged.with_timestamp 2 5 12, CeResult.ok (8 + 2 ^ 48)) := by
  obtain ⟨out, hsome, hok, _, _⟩ := C1_compare_exchange_err 2 5 (8 + 2 ^ 48) 8 12
  have hpe : Tagged.ptr_eq (8 + 2 ^ 48) 8 = true := by decide
  refine ⟨hpe, ?_⟩
  rw [hsome, hok hpe]
  decide

/-- C6: `compare_exchange_tag` always terminates, performs no
reference-count operation on either branch (both branches return
snapshots), on success leaves the slot holding the same raw pointer with
only the low tag bits replaced by the desired tag truncated to the
alignment bits, on failure leaves the slot unmodified and returns
snapshots, and with `desired_tag = expected.tag()` it leaves the
user-visible state unchanged. -/
theorem C6_compare_exchange_tag_frame (a e slot expected t : Nat)
    (ha : a ≤ 48) :
    ∃ out,
      AtomicRc.compare_exchange_tag a e slot expected t = some out ∧
      out.2.2 = [] ∧
      (Tagged.ptr_eq slot expected = true →
        out.2.1 = CetResult.ok slot ∧
        Tagged.ptr_eq out.1 (Tagged.with_tag a slot t) = true ∧
        Tagged.tag a out.1 = t &&& low_bits a) ∧
      (Tagged.ptr_eq slot expected = false →
        out = (slot, CetResult.err
          (Tagged.with_timestamp a e (Tagged.with_tag a expected t))
          slot, [])) ∧
      (Tagged.ptr_eq slot expected = true → t = Tagged.tag a slot →
        Tagged.ptr_eq out.1 slot = true) := by
  by_cases hbe : (slot == expected) = true
  · have heq : slot = expected := by simpa using hbe
    subst heq
    refine ⟨(Tagged.with_timestamp a e (Tagged.with_tag a slot t),
      CetResult.ok slot, []), ?_, rfl, fun _ => ⟨rfl, ?_, ?_⟩, ?_, ?_⟩
    · simp [AtomicRc.compare_exchange_tag, AtomicRc.cetLoop, hbe]
    · rw [ptr_eq_iff, with_timestamp_mod]
    · rw [tag_with_timestamp a e _ ha, tag_with_tag_general]
    · intro hpf
      rw [ptr_eq_refl] at hpf
      cases hpf
    · intro _ ht
      rw [ptr_eq_iff, with_timestamp_mod, ht, with_tag_self_tag a slot ha]
  · have hbe2 : (slot == expected) = false := by
      rwa [Bool.not_eq_true] at hbe
    by_cases hpe : Tagged.ptr_eq slot expected = true
    · have hmod : expected % highShift = slot % highShift :=
        ((ptr_eq_iff slot expected).mp hpe).symm
      have huser : Tagged.with_timestamp a e (Tagged.with_tag a expected t)
          % highShift = Tagged.with_tag a slot t % highShift := by
        rw [with_timestamp_mod, with_tag_userWord, hmod, ← with_tag_userWord]
      refine ⟨(Tagged.with_timestamp a e (Tagged.with_tag a expected t),
        CetResult.ok slot, []), ?_, rfl, fun _ => ⟨rfl, ?_, ?_⟩, ?_, ?_⟩
      · simp [AtomicRc.compare_exchange_tag, AtomicRc.cetLoop, hbe2, hpe]
      · rw [ptr_eq_iff]
        exact huser
      · rw [tag_with_timestamp a e _ ha, tag_with_tag_general]
      · intro hpf
        rw [hpe] at hpf
        cases hpf
      · intro _ ht
        rw [ptr_eq_iff]
        rw [huser, ht, with_tag_self_tag a slot ha]
    · have hpe2 : Tagged.ptr_eq slot expected = false := by
        rwa [Bool.not_eq_true] at hpe
      refine ⟨(slot, CetResult.err
        (Tagged.with_timestamp a e (Tagged.with_tag a expected t)) slot,
        []), ?_, rfl, ?_, fun _ => rfl, ?_⟩
      · simp [AtomicRc.compare_exchange_tag, AtomicRc.cetLoop, hbe2, hpe2]
      · intro hpt
        exact absurd hpt hpe
      · intro hpt
        exact absurd hpt hpe

/-- Witness for C6 at `a = 2`, `e = 5`, `slot = expected = 8`,
`desired_tag = 1`. -/
theorem C6_witness :
    (2 : Nat) ≤ 48 ∧ Tagged.ptr_eq 8 8 = true ∧
      ∃ out, AtomicRc.compare_exchange_tag 2 5 8 8 1 = some out ∧
        out.2.2 = [] ∧
        Tagged.ptr_eq out.1 (Tagged.with_tag 2 8 1) = true := by
  obtain ⟨out, hsome, hnil, hsucc, _, _⟩ :=
    C6_compare_exchange_tag_frame 2 5 8 8 1 (by norm_num)
  have hpe : Tagged.ptr_eq 8 8 = true := by decide
  exact ⟨by norm_num, hpe, out, hsome, hnil, (hsucc hpe).2.1⟩

/-! ## IRD engine equations and the chain run -/

theorem irdStep_inline (g : Nat) (edges : Nat → List IrdEdge)
    (sf : Nat → Nat) (pa pe : Nat) (rest bag : List IrdEdge)
    (destr : List Nat) (hnn : (pa == 0) = false) (hs : sf pa = 1)
    (hold : pe + 2 ≤ g) :
    irdStep g edges ⟨sf, ⟨pa, pe⟩ :: rest, bag, destr⟩ =
      ⟨fun x => if (x == pa) = true then (1 + (U32 - 1)) % U32
          else sf x,
        edges pa ++ rest, bag, destr ++ [pa]⟩ := by
  simp only [irdStep, hnn, hs, Bool.false_eq_true, if_false,
    beq_self_eq_true, if_true, if_pos hold]

theorem irdStep_defer (g : Nat) (edges : Nat → List IrdEdge)
    (sf : Nat → Nat) (pa pe : Nat) (rest bag : List IrdEdge)
    (destr : List Nat) (hnn : (pa == 0) = false) (hs : sf pa = 1)
    (hnew : ¬ pe + 2 ≤ g) :
    irdStep g edges ⟨sf, ⟨pa, pe⟩ :: rest, bag, destr⟩ =
      ⟨fun x => if (x == pa) = true then (1 + (U32 - 1)) % U32
          else sf x,
        rest, bag ++ [⟨pa, pe⟩], destr⟩ := by
  simp only [irdStep, hnn, hs, Bool.false_eq_true, if_false,
    beq_self_eq_true, if_true, if_neg hnew]

theorem irdStep_null (g : Nat) (edges : Nat → List IrdEdge)
    (sf : Nat → Nat) (ep : Nat) (rest bag : List IrdEdge)
    (destr : List Nat) :
    irdStep g edges ⟨sf, ⟨0, ep⟩ :: rest, bag, destr⟩ =
      ⟨sf, rest, bag, destr⟩ := by
  simp only [irdStep, beq_self_eq_true, if_true]

theorem irdRun_succ_cons (g : Nat) (edges : Nat → List IrdEdge)
    (fuel : Nat) (sf : Nat → Nat) (p : IrdEdge) (rest bag : List IrdEdge)
    (destr : List Nat) :
    irdRun g edges (fuel + 1) ⟨sf, p :: rest, bag, destr⟩ =
      ((irdRun g edges fuel
          (irdStep g edges ⟨sf, p :: rest, bag, destr⟩)).1,
        max (p :: rest).length
          (irdRun g edges fuel
            (irdStep g edges ⟨sf, p :: rest, bag, destr⟩)).2) := rfl

/-- The run over an old-epoch chain destroys every block, defers nothing,
and keeps the buffer length at most one throughout: when the remaining
chain is `j, ..., L` (with `j + m = L` counting the steps left), the
engine finishes with `destroyed = [1, ..., L]`. -/
theorem chain_run (g L : Nat) (eps : Nat → Nat)
    (heps : ∀ i, eps i + 2 ≤ g) :
    ∀ (m j : Nat) (sf : Nat → Nat), j + m = L → 1 ≤ j →
      (∀ i, j < i → sf i = 1) →
      ((irdRun g (chainEdges L eps) (m + 1)
          ⟨sf, chainEdges L eps j, [], List.range' 1 j⟩).1.destroyed =
        List.range' 1 L ∧
      (irdRun g (chainEdges L eps) (m + 1)
          ⟨sf, chainEdges L eps j, [], List.range' 1 j⟩).1.bag = [] ∧
      (irdRun g (chainEdges L eps) (m + 1)
          ⟨sf, chainEdges L eps j, [], List.range' 1 j⟩).1.work = [] ∧
      (irdRun g (chainEdges L eps) (m + 1)
          ⟨sf, chainEdges L eps j, [], List.range' 1 j⟩).2 ≤ 1) := by
  intro m
  induction m with
  | zero =>
    intro j sf hjm hj1 hsf
    have hj : j = L := by omega
    rw [hj]
    have hE : chainEdges L eps L = [⟨0, 0⟩] := by
      simp [chainEdges]
    rw [hE, irdRun_succ_cons, irdStep_null]
    refine ⟨rfl, rfl, rfl, ?_⟩
    simp [irdRun]
  | succ m ih =>
    intro j sf hjm hj1 hsf
    have hjL : j < L := by omega
    have hE : chainEdges L eps j = [⟨j + 1, eps j⟩] := by
      simp [chainEdges, hjL]
    have hnn : (j + 1 == 0) = false := by simp
    have hs : sf (j + 1) = 1 := hsf _ (by omega)
    have hrange : List.range' 1 j ++ [j + 1] = List.range' 1 (j + 1) := by
      have h := List.range'_append_1 1 j 1
      rw [Nat.add_comm 1 j] at h
      simpa using h
    have hstep := irdStep_inline g (chainEdges L eps) sf (j + 1) (eps j)
      [] [] (List.range' 1 j) hnn hs (heps j)
    rw [List.append_nil, hrange] at hstep
    have hsf2 : ∀ i, j + 1 < i →
        (fun x => if (x == j + 1) = true then
          (1 + (U32 - 1)) % U32 else sf x) i = 1 := by
      intro i hi
      have hne : (i == j + 1) = false := by
        simp
        omega
      simp only [hne, Bool.false_eq_true, if_false]
      exact hsf i (by omega)
    have ihh := ih (j + 1)
      (fun x => if (x == j + 1) = true then
        (1 + (U32 - 1)) % U32 else sf x)
      (by omega) (by omega) hsf2
    rw [hE, irdRun_succ_cons, hstep]
    refine ⟨ihh.1, ihh.2.1, ihh.2.2.1, ?_⟩
    have hm := ihh.2.2.2
    simp only [List.length_cons, List.length_nil]
    omega

/-- C5: when processing an extracted edge whose target's strong count
reaches zero, the engine destroys the target inline exactly when the
edge's installation epoch is at most the guard's epoch minus two, and
defers it to the EBR bag exactly otherwise; consequently, destroying the
head of a linked chain of length `L` whose links' installation epochs are
all at least two epochs old destroys every block, defers nothing, and
keeps the engine's only auxiliary space — the edge buffer standing in
for call-stack growth — at length at most one throughout. -/
theorem C5_ird_inline_iff_epoch_old (g : Nat)
    (edges : Nat → List IrdEdge) (st : IrdState) (p : IrdEdge)
    (rest : List IrdEdge) (L : Nat) (eps : Nat → Nat)
    (hw : st.work = p :: rest) (hnn : p.addr ≠ 0)
    (hs : st.strong p.addr = 1) (hg : 2 ≤ g) (hL : 1 ≤ L)
    (heps : ∀ i, eps i + 2 ≤ g) :
    ((irdStep g edges st).destroyed = st.destroyed ++ [p.addr] ↔
      p.epoch ≤ g - 2) ∧
    ((irdStep g edges st).bag = st.bag ++ [p] ↔ ¬ p.epoch ≤ g - 2) ∧
    (irdDestroy g (chainEdges L eps) (fun _ => 1) 1 L).1.destroyed =
      List.range' 1 L ∧
    (irdDestroy g (chainEdges L eps) (fun _ => 1) 1 L).1.bag = [] ∧
    (irdDestroy g (chainEdges L eps) (fun _ => 1) 1 L).1.work = [] ∧
    (irdDestroy g (chainEdges L eps) (fun _ => 1) 1 L).2 ≤ 1 := by
  obtain ⟨sf, wk, bg, ds⟩ := st
  obtain ⟨pa, pe⟩ := p
  dsimp only at hw hs hnn ⊢
  subst hw
  have hnn2 : (pa == 0) = false := by simp [hnn]
  have hchain : (irdDestroy g (chainEdges L eps) (fun _ => 1) 1
        L).1.destroyed = List.range' 1 L ∧
      (irdDestroy g (chainEdges L eps) (fun _ => 1) 1 L).1.bag = [] ∧
      (irdDestroy g (chainEdges L eps) (fun _ => 1) 1 L).1.work = [] ∧
      (irdDestroy g (chainEdges L eps) (fun _ => 1) 1 L).2 ≤ 1 := by
    obtain ⟨m, rfl⟩ : ∃ m, L = m + 1 := ⟨L - 1, by omega⟩
    have h := chain_run g (m + 1) eps heps m 1 (fun _ => 1) (by omega)
      (by omega) (fun i _ => rfl)
    simpa [irdDestroy] using h
  by_cases hold : pe + 2 ≤ g
  · rw [irdStep_inline g edges sf pa pe rest bg ds hnn2 hs hold]
    exact ⟨iff_of_true rfl (by omega),
      iff_of_false (by simp) (by omega), hchain⟩
  · rw [irdStep_defer g edges sf pa pe rest bg ds hnn2 hs hold]
    exact ⟨iff_of_false (by simp) (by omega),
      iff_of_true rfl (by omega), hchain⟩

/-- Witness for C5: guard epoch 2, chain of length 3, all installation
epochs 0 — the head's cascade destroys blocks 1, 2, 3 inline with an
empty deferral bag and buffer length at most 1, and a single step on a
worklist edge of epoch 0 destroys its target inline. -/
theorem C5_witness :
    (∀ i : Nat, (fun _ => 0 : Nat → Nat) i + 2 ≤ 2) ∧
      (irdStep 2 (fun _ => []) ⟨fun _ => 1, [⟨5, 0⟩], [], []⟩).destroyed =
        [] ++ [5] ∧
      (irdDestroy 2 (chainEdges 3 (fun _ => 0)) (fun _ => 1)
        1 3).1.destroyed = List.range' 1 3 ∧
      (irdDestroy 2 (chainEdges 3 (fun _ => 0)) (fun _ => 1)
        1 3).1.bag = [] ∧
      (irdDestroy 2 (chainEdges 3 (fun _ => 0)) (fun _ => 1) 1 3).2 ≤ 1 := by
  have h := C5_ird_inline_iff_epoch_old 2 (fun _ => [])
    ⟨fun _ => 1, [⟨5, 0⟩], [], []⟩ ⟨5, 0⟩ [] 3 (fun _ => 0)
    rfl (by decide) rfl (by omega) (by omega) (fun i => by simp)
  exact ⟨fun i => by simp, h.1.mpr (by decide), h.2.2.1, h.2.2.2.1,
    h.2.2.2.2.2⟩

end Circ
